import Mathlib

/-!
Verification development for the chord-per-word renderer (src/app.py).

The file embeds the two core functions of the source shallowly:

* `tokenize_line`, the tokenizer `re.findall(r"\S+|\s+", line)`;
* `render_chorded_lyrics`, the layout/render engine, whose drawing calls
  are recorded as a list of `DrawOp` values on an `Image` of the computed
  size instead of mutating a PIL canvas.

Text is `List Char`; PIL `draw.textlength` results (floats) are modelled
as exact rationals supplied by an abstract `Font`; the integer vertical
cursor of the source stays an integer (`ℤ`).
-/

namespace ChordApp

/-- The whitespace character class shared by the tokenizer regex `\S`/`\s`
and by `str.isspace` in the source (CPython uses the same character
predicate for both); modelled here by its ASCII fragment. -/
def isSpaceChar (c : Char) : Bool :=
  c = ' ' || c = '\t' || c = '\n' || c = '\r' || c = '\x0b' || c = '\x0c'

/-- Python `tok.isspace()`: a string is *space* iff it is nonempty and every
character is whitespace. -/
def isspaceStr (s : List Char) : Bool :=
  !s.isEmpty && s.all isSpaceChar

/-- `tokenize_line` of src/app.py: `re.findall(r"\S+|\s+", line)`, i.e. the
maximal runs of characters of equal spaceness, in order.  A character is
merged into the following token exactly when it has the same classification
as that token's first character. -/
def tokenize_line : List Char → List (List Char)
  | [] => []
  | c :: cs =>
    match tokenize_line cs with
    | [] => [[c]]
    | [] :: ts => [c] :: [] :: ts
    | (d :: t) :: ts =>
      if isSpaceChar c = isSpaceChar d then (c :: d :: t) :: ts
      else [c] :: (d :: t) :: ts

/-- The line-boundary characters of Python `str.splitlines`. -/
def isLineBreak (c : Char) : Bool :=
  c = '\n' || c = '\r' || c = '\x0b' || c = '\x0c' || c = '\x1c' ||
    c = '\x1d' || c = '\x1e' || c = '\x85' || c = '\u2028' || c = '\u2029'

/-- Python `str.splitlines` as used in `lyrics.splitlines()`: split at line
boundaries, treating `"\r\n"` as a single boundary; the boundary characters
are consumed and a trailing boundary yields no extra empty line. -/
def splitlines : List Char → List (List Char)
  | [] => []
  | [c] => if isLineBreak c then [[]] else [[c]]
  | c :: d :: cs =>
    if isLineBreak c then
      if c = '\r' && d = '\n' then [] :: splitlines cs
      else [] :: splitlines (d :: cs)
    else
      match splitlines (d :: cs) with
      | [] => [[c]]
      | l :: ls => (c :: l) :: ls

/-- Python truthiness of the `title : Optional[str]` argument: `None` and
the empty string are falsy, used by `if title:` in the source. -/
def truthy : Option (List Char) → Bool
  | none => false
  | some s => !s.isEmpty

/-- A loaded font, reduced to the two measurements the source takes from
it: `draw.textlength(s, font)` (a float, modelled exactly as `ℚ`) and
`textheight(font)` = `bbox[3] - bbox[1]` of `font.getbbox("Ag")` (an
integer). -/
structure Font where
  width : List Char → ℚ
  height : ℤ

/-- Which of the three fonts a draw call used. -/
inductive FontSlot
  | base
  | chord
  | title
  deriving DecidableEq, Repr

/-- One `draw.text((x, y), s, font)` call: x is a float (ℚ), y the integer
vertical cursor. -/
structure DrawOp where
  x : ℚ
  y : ℤ
  s : List Char
  slot : FontSlot
  deriving DecidableEq, Repr

/-- The output `Image.new("RGB", (page_width, total_h), "white")` together
with the draw calls performed on it, in order. -/
structure Image where
  width : ℤ
  height : ℤ
  ops : List DrawOp
  deriving DecidableEq, Repr

/-- The inner token walk of the render loop (src/app.py lines 57-66): for a
space token advance x by its measured width and draw nothing; for a word
token draw its chord (if `(li, ti)` is in the map) centered over the word at
the chord row `y`, then advance x by the word width plus one measured space
width.  Returns the draw calls and the final x cursor. -/
def chordRowWalk (base chordF : Font) (cm : Nat × Nat → Option (List Char))
    (li : Nat) (y : ℤ) : List (List Char) → Nat → ℚ → List DrawOp × ℚ
  | [], _, x => ([], x)
  | tok :: toks, ti, x =>
    if isspaceStr tok then
      chordRowWalk base chordF cm li y toks (ti + 1) (x + base.width tok)
    else
      let tok_w := base.width tok
      let chordOps : List DrawOp :=
        match cm (li, ti) with
        | some chord_txt =>
          [⟨x + (tok_w - chordF.width chord_txt) / 2, y, chord_txt, FontSlot.chord⟩]
        | none => []
      let rest := chordRowWalk base chordF cm li y toks (ti + 1)
        (x + tok_w + base.width [' '])
      (chordOps ++ rest.1, rest.2)

/-- The per-line loop of the render (src/app.py lines 53-69): for each line,
the chord-row walk starting at x = margin, then the lyric line drawn whole
at `(margin, y + chord_h + chord_gap)`, then the vertical cursor advances by
`chord_h + chord_gap + line_h + line_spacing`. -/
def linesOps (base chordF : Font) (cm : Nat × Nat → Option (List Char))
    (margin chord_gap line_spacing : ℤ) :
    List (List Char) → Nat → ℤ → List DrawOp
  | [], _, _ => []
  | line :: rest, li, y =>
    (chordRowWalk base chordF cm li y (tokenize_line line) 0 (margin : ℚ)).1
      ++ ⟨(margin : ℚ), y + chordF.height + chord_gap, line, FontSlot.base⟩
      :: linesOps base chordF cm margin chord_gap line_spacing rest (li + 1)
        (y + chordF.height + chord_gap + base.height + line_spacing)

/-- The render engine after font resolution (src/app.py lines 25, 35-71):
split the lyrics, compute the canvas height, draw the centered title when
truthy, then run the per-line loop starting at `y = margin + title_h`. -/
def renderWithFonts (base chordF titleF : Font) (lyrics : List Char)
    (chord_map : Nat × Nat → Option (List Char)) (title : Option (List Char))
    (page_width margin line_spacing chord_gap : ℤ) : Image :=
  let lines := splitlines lyrics
  let line_h := base.height
  let chord_h := chordF.height
  let title_h : ℤ := if truthy title then titleF.height + 20 else 0
  let total_h : ℤ :=
    margin + title_h
      + (line_h + chord_h + chord_gap + line_spacing) * (lines.length : ℤ)
      + margin
  let titleOps : List DrawOp :=
    if truthy title then
      let t := title.getD []
      let tw := titleF.width t
      [⟨((⌊((page_width : ℚ) - tw) / 2⌋ : ℤ) : ℚ), margin, t, FontSlot.title⟩]
    else []
  ⟨page_width, total_h,
    titleOps ++ linesOps base chordF chord_map margin chord_gap line_spacing
      lines 0 (margin + title_h)⟩

/-- `render_chorded_lyrics` of src/app.py.  The `try`/`except` around the
three `ImageFont.truetype` calls is modelled by `fontLoad`: `some` carries
the three preferred fonts (base, chord, title) when all loads succeed,
`none` is the exception path, on which all three variables are assigned
`ImageFont.load_default()` (the one shared handler runs after any of the
three loads raises). -/
def render_chorded_lyrics (lyrics : List Char)
    (chord_map : Nat × Nat → Option (List Char)) (title : Option (List Char))
    (page_width margin line_spacing chord_gap : ℤ)
    (fontLoad : Option (Font × Font × Font)) (defaultFont : Font) : Image :=
  match fontLoad with
  | some (base, chordF, titleF) =>
    renderWithFonts base chordF titleF lyrics chord_map title
      page_width margin line_spacing chord_gap
  | none =>
    renderWithFonts defaultFont defaultFont defaultFont lyrics chord_map title
      page_width margin line_spacing chord_gap

/-- Spec-side advance of the horizontal cursor contributed by one token
(spec section 4.2 steps c-d): a space token advances by its own measured
width, a word token by its width plus one measured single-space width. -/
def advance (base : Font) (tok : List Char) : ℚ :=
  if isspaceStr tok then base.width tok
  else base.width tok + base.width [' ']

/-- The token found at a chord-map key: the lyrics are split into lines,
the line at the key's line index is tokenized and the token at the key's
token index returned, `none` when either index is out of range. -/
def tokenAt (lyrics : List Char) (k : Nat × Nat) : Option (List Char) :=
  ((splitlines lyrics)[k.1]?).bind fun line => (tokenize_line line)[k.2]?

/-- The chord map with the entry at key `k` removed. -/
def eraseKey (cm : Nat × Nat → Option (List Char)) (k : Nat × Nat) :
    Nat × Nat → Option (List Char) :=
  fun q => if q = k then none else cm q

/-- Nonempty and not ending in a line-break character. -/
def lastNoBreak : List Char → Bool
  | [] => false
  | c :: cs => if cs.isEmpty then !isLineBreak c else lastNoBreak cs

end ChordApp

namespace ChordApp

theorem tokenize_cons_ne_nil (c : Char) (cs : List Char) :
    tokenize_line (c :: cs) ≠ [] := by
  cases h : tokenize_line cs with
  | nil => simp [tokenize_line, h]
  | cons t ts =>
    cases t with
    | nil => simp [tokenize_line, h]
    | cons d t => simp only [tokenize_line, h]; split <;> simp

/-- C1: tokenizer partition law — concatenating the tokens of
`tokenize_line s` in order reproduces `s` exactly: no character is dropped,
duplicated or reordered, and every character of `s` lies in exactly one
token. -/
theorem tokenize_line_join (s : List Char) : (tokenize_line s).flatten = s := by
  induction s with
  | nil => rfl
  | cons c cs ih =>
    cases h : tokenize_line cs with
    | nil =>
      rw [h] at ih
      simp only [List.flatten_nil] at ih
      simp [tokenize_line, h, ← ih]
    | cons t ts =>
      rw [h] at ih
      cases t with
      | nil =>
        simp only [List.flatten_cons, List.nil_append] at ih
        simp [tokenize_line, h, List.flatten_cons, ih]
      | cons d t =>
        simp only [List.flatten_cons] at ih
        simp only [tokenize_line, h]
        split <;> simp [List.flatten_cons, ih]

theorem isspaceStr_cons_same (c d : Char) (t : List Char)
    (h : isSpaceChar c = isSpaceChar d) :
    isspaceStr (c :: d :: t) = isspaceStr (d :: t) := by
  simp only [isspaceStr, List.isEmpty_cons, List.all_cons, h,
    Bool.not_false, Bool.true_and]
  cases isSpaceChar d <;> simp

theorem isspaceStr_eq_head (d : Char) (t : List Char)
    (h : (d :: t).all isSpaceChar = true ∨
      (d :: t).all (fun c => !isSpaceChar c) = true) :
    isspaceStr (d :: t) = isSpaceChar d := by
  rcases h with h | h
  · simp only [List.all_cons, Bool.and_eq_true] at h
    simp [isspaceStr, h.1, h.2]
  · simp only [List.all_cons, Bool.and_eq_true, Bool.not_eq_true'] at h
    simp [isspaceStr, h.1]

/-- C6: every token of `tokenize_line` is nonempty and either all
whitespace or free of whitespace, and no two consecutive tokens share the
space/word classification. -/
theorem tokenize_line_classification (s : List Char) :
    (∀ t ∈ tokenize_line s, t ≠ [] ∧
      (t.all isSpaceChar = true ∨ t.all (fun c => !isSpaceChar c) = true)) ∧
    List.Chain' (fun a b => isspaceStr a ≠ isspaceStr b) (tokenize_line s) := by
  induction s with
  | nil => simp [tokenize_line]
  | cons c cs ih =>
    obtain ⟨ih1, ih2⟩ := ih
    cases h : tokenize_line cs with
    | nil =>
      refine ⟨?_, ?_⟩
      · intro t ht
        simp [tokenize_line, h] at ht
        subst ht
        cases hc : isSpaceChar c <;> simp [hc]
      · simp [tokenize_line, h]
    | cons t ts =>
      rw [h] at ih1 ih2
      cases t with
      | nil => exact absurd rfl (ih1 [] (List.mem_cons_self _ _)).1
      | cons d t =>
        have hdt := ih1 (d :: t) (List.mem_cons_self _ _)
        by_cases hcd : isSpaceChar c = isSpaceChar d
        · have htok : tokenize_line (c :: cs) = (c :: d :: t) :: ts := by
            simp [tokenize_line, h, hcd]
          rw [htok]
          refine ⟨?_, ?_⟩
          · intro u hu
            rcases List.mem_cons.mp hu with hu | hu
            · subst hu
              refine ⟨by simp, ?_⟩
              rcases hdt.2 with hall | hall
              · left
                simp only [List.all_cons, Bool.and_eq_true] at hall ⊢
                have : isSpaceChar d = true := hall.1
                exact ⟨hcd ▸ this, hall⟩
              · right
                simp only [List.all_cons, Bool.and_eq_true] at hall ⊢
                have : (!isSpaceChar d) = true := hall.1
                exact ⟨by rw [hcd]; exact this, hall⟩
            · exact ih1 u (List.mem_cons_of_mem _ hu)
          · rw [List.chain'_cons'] at ih2 ⊢
            refine ⟨?_, ih2.2⟩
            intro b hb
            rw [isspaceStr_cons_same c d t hcd]
            exact ih2.1 b hb
        · have htok : tokenize_line (c :: cs) = [c] :: (d :: t) :: ts := by
            simp [tokenize_line, h, hcd]
          rw [htok]
          refine ⟨?_, ?_⟩
          · intro u hu
            rcases List.mem_cons.mp hu with hu | hu
            · subst hu
              cases hc : isSpaceChar c <;> simp [hc]
            · exact ih1 u hu
          · rw [List.chain'_cons]
            refine ⟨?_, ih2⟩
            rw [isspaceStr_eq_head d t hdt.2]
            simp [isspaceStr]
            intro heq
            exact hcd (by rw [heq])

end ChordApp

namespace ChordApp

theorem splitlines_cons_ne_nil (a : Char) (l : List Char) :
    splitlines (a :: l) ≠ [] := by
  cases l with
  | nil => simp only [splitlines]; split <;> simp
  | cons d cs =>
    simp only [splitlines]
    split
    · split <;> simp
    · split <;> simp

theorem splitlines_append_break (c : Char) (hc : isLineBreak c = true) :
    ∀ n s, s.length ≤ n → lastNoBreak s = true →
      splitlines (s ++ [c]) = splitlines s := by
  intro n
  induction n with
  | zero =>
    intro s hlen hlast
    rw [Nat.le_zero, List.length_eq_zero] at hlen
    subst hlen
    simp [lastNoBreak] at hlast
  | succ n ih =>
    intro s hlen hlast
    match s with
    | [] => simp [lastNoBreak] at hlast
    | [a] =>
      simp only [lastNoBreak, List.isEmpty_nil, if_true, Bool.not_eq_true'] at hlast
      simp [splitlines, hlast, hc]
    | a :: e :: t =>
      have hlast2 : lastNoBreak (e :: t) = true := by
        simpa [lastNoBreak] using hlast
      have hlen2 : (e :: t).length ≤ n := by
        simp only [List.length_cons] at hlen ⊢
        omega
      by_cases ha : isLineBreak a = true
      · by_cases hmerge : a = '\r' && e = '\n'
        · have he : e = '\n' := by
            rcases Bool.and_eq_true_iff.mp hmerge with ⟨_, h2⟩
            exact decide_eq_true_eq.mp h2
          cases t with
          | nil =>
            rw [he] at hlast2
            simp [lastNoBreak, isLineBreak] at hlast2
          | cons f t' =>
            have hlast3 : lastNoBreak (f :: t') = true := by
              simpa [lastNoBreak] using hlast2
            have hlen3 : (f :: t').length ≤ n := by
              simp only [List.length_cons] at hlen ⊢
              omega
            show splitlines (a :: e :: ((f :: t') ++ [c])) = _
            simp only [splitlines, ha, if_true, hmerge]
            exact congrArg (List.cons []) (ih (f :: t') hlen3 hlast3)
        · show splitlines (a :: e :: (t ++ [c])) = _
          simp only [splitlines, ha, if_true, hmerge, if_false, Bool.false_eq_true]
          exact congrArg (List.cons []) (ih (e :: t) hlen2 hlast2)
      · show splitlines (a :: e :: (t ++ [c])) = _
        simp only [splitlines, ha, Bool.false_eq_true, if_false]
        rw [show e :: (t ++ [c]) = (e :: t) ++ [c] from rfl,
          ih (e :: t) hlen2 hlast2]

/-- C8 counterexample: the lyrics string `"a\n\n"` ends in a line break, yet
its line split `["a", ""]` differs from the split `["a"]` of `"a\n"`, the
same string without its trailing line break. -/
theorem splitlines_trailing_cex :
    isLineBreak '\n' = true ∧
    "a\n\n".data = "a\n".data ++ ['\n'] ∧
    splitlines "a\n\n".data ≠ splitlines "a\n".data := by
  refine ⟨by decide, by decide, by decide⟩

/-- C8 (amended): appending a line-break character to a lyrics string that
is nonempty and does not already end in a line break leaves the line split
unchanged — the trailing break produces no phantom extra empty line.  (When
the remaining string is empty or itself ends in a line break, the trailing
break does add one empty line, as the counterexample shows.) -/
theorem splitlines_trailing_break (s : List Char) (c : Char)
    (hc : isLineBreak c = true) (hs : lastNoBreak s = true) :
    splitlines (s ++ [c]) = splitlines s :=
  splitlines_append_break c hc s.length s le_rfl hs

/-- Witness for `splitlines_trailing_break` at `s = "ab"`, `c = '\n'`. -/
theorem splitlines_trailing_break_witness :
    splitlines ("ab".data ++ ['\n']) = splitlines "ab".data :=
  splitlines_trailing_break "ab".data '\n' (by decide) (by decide)

end ChordApp

namespace ChordApp

theorem chordRowWalk_cursor (base chordF : Font)
    (cm : Nat × Nat → Option (List Char)) (li : Nat) (y : ℤ) :
    ∀ (toks : List (List Char)) (ti : Nat) (x : ℚ),
      (chordRowWalk base chordF cm li y toks ti x).2
        = x + (toks.map (advance base)).sum := by
  intro toks
  induction toks with
  | nil => intro ti x; simp [chordRowWalk]
  | cons tok toks ih =>
    intro ti x
    cases hsp : isspaceStr tok with
    | true =>
      simp only [chordRowWalk, hsp, if_true]
      rw [ih]
      simp [advance, hsp]
      ring
    | false =>
      simp only [chordRowWalk, hsp, Bool.false_eq_true, if_false]
      rw [ih]
      simp [advance, hsp]
      ring

theorem chordRowWalk_mem (base chordF : Font)
    (cm : Nat × Nat → Option (List Char)) (li : Nat) (y : ℤ) :
    ∀ (toks : List (List Char)) (ti : Nat) (x : ℚ) (op : DrawOp),
      op ∈ (chordRowWalk base chordF cm li y toks ti x).1 →
      ∃ j tok, toks[j]? = some tok ∧ isspaceStr tok = false ∧
        cm (li, ti + j) = some op.s ∧ op.slot = FontSlot.chord ∧ op.y = y := by
  intro toks
  induction toks with
  | nil => intro ti x op hop; simp [chordRowWalk] at hop
  | cons tok0 toks ih =>
    intro ti x op hop
    cases hsp : isspaceStr tok0 with
    | true =>
      rw [show chordRowWalk base chordF cm li y (tok0 :: toks) ti x
          = chordRowWalk base chordF cm li y toks (ti + 1) (x + base.width tok0)
        from by simp [chordRowWalk, hsp]] at hop
      obtain ⟨j, tok, h1, h2, h3, h4, h5⟩ := ih (ti + 1) _ op hop
      refine ⟨j + 1, tok, by simpa using h1, h2, ?_, h4, h5⟩
      rw [show ti + (j + 1) = ti + 1 + j by omega]
      exact h3
    | false =>
      simp only [chordRowWalk, hsp, Bool.false_eq_true, if_false] at hop
      rcases List.mem_append.mp hop with hin | hin
      · cases hcm : cm (li, ti) with
        | none => rw [hcm] at hin; simp at hin
        | some txt =>
          rw [hcm] at hin
          simp only [List.mem_singleton] at hin
          subst hin
          exact ⟨0, tok0, by simp, hsp, by simpa using hcm, rfl, rfl⟩
      · obtain ⟨j, tok, h1, h2, h3, h4, h5⟩ := ih (ti + 1) _ op hin
        refine ⟨j + 1, tok, by simpa using h1, h2, ?_, h4, h5⟩
        rw [show ti + (j + 1) = ti + 1 + j by omega]
        exact h3

theorem chordRowWalk_mem_of (base chordF : Font)
    (cm : Nat × Nat → Option (List Char)) (li : Nat) (y : ℤ) :
    ∀ (toks : List (List Char)) (ti : Nat) (x : ℚ) (j : Nat) (tok txt : List Char),
      toks[j]? = some tok → isspaceStr tok = false → cm (li, ti + j) = some txt →
      (⟨x + ((toks.take j).map (advance base)).sum
          + (base.width tok - chordF.width txt) / 2, y, txt, FontSlot.chord⟩ : DrawOp)
        ∈ (chordRowWalk base chordF cm li y toks ti x).1 := by
  intro toks
  induction toks with
  | nil => intro ti x j tok txt h1; simp at h1
  | cons tok0 toks ih =>
    intro ti x j tok txt h1 h2 h3
    cases j with
    | zero =>
      simp only [List.getElem?_cons_zero, Option.some.injEq] at h1
      subst h1
      simp only [chordRowWalk, h2, Bool.false_eq_true, if_false]
      have h3' : cm (li, ti) = some txt := by simpa using h3
      rw [h3']
      simp only [List.take_zero, List.map_nil, List.sum_nil, add_zero]
      exact List.mem_append_left _ (List.mem_singleton.mpr rfl)
    | succ j =>
      simp only [List.getElem?_cons_succ] at h1
      have h3' : cm (li, ti + 1 + j) = some txt := by
        rw [show ti + 1 + j = ti + (j + 1) by omega]
        exact h3
      cases hsp : isspaceStr tok0 with
      | true =>
        rw [show chordRowWalk base chordF cm li y (tok0 :: toks) ti x
            = chordRowWalk base chordF cm li y toks (ti + 1) (x + base.width tok0)
          from by simp [chordRowWalk, hsp]]
        have hx : x + (((tok0 :: toks).take (j + 1)).map (advance base)).sum
              + (base.width tok - chordF.width txt) / 2
            = x + base.width tok0 + ((toks.take j).map (advance base)).sum
              + (base.width tok - chordF.width txt) / 2 := by
          simp [List.take_succ_cons, advance, hsp]
          ring
        rw [hx]
        exact ih (ti + 1) (x + base.width tok0) j tok txt h1 h2 h3'
      | false =>
        simp only [chordRowWalk, hsp, Bool.false_eq_true, if_false]
        have hx : x + (((tok0 :: toks).take (j + 1)).map (advance base)).sum
              + (base.width tok - chordF.width txt) / 2
            = x + base.width tok0 + base.width [' ']
              + ((toks.take j).map (advance base)).sum
              + (base.width tok - chordF.width txt) / 2 := by
          simp [List.take_succ_cons, advance, hsp]
          ring
        rw [hx]
        exact List.mem_append_right _
          (ih (ti + 1) (x + base.width tok0 + base.width [' ']) j tok txt h1 h2 h3')

end ChordApp

namespace ChordApp

theorem linesOps_mem_of (base chordF : Font)
    (cm : Nat × Nat → Option (List Char)) (m cg ls : ℤ) :
    ∀ (lines : List (List Char)) (li : Nat) (y : ℤ) (i : Nat)
      (line : List Char) (j : Nat) (tok txt : List Char),
      lines[i]? = some line → (tokenize_line line)[j]? = some tok →
      isspaceStr tok = false → cm (li + i, j) = some txt →
      ∃ yr, (⟨(m : ℚ) + (((tokenize_line line).take j).map (advance base)).sum
          + (base.width tok - chordF.width txt) / 2, yr, txt, FontSlot.chord⟩ : DrawOp)
        ∈ linesOps base chordF cm m cg ls lines li y := by
  intro lines
  induction lines with
  | nil => intro li y i line j tok txt h1; simp at h1
  | cons line0 rest ih =>
    intro li y i line j tok txt h1 h2 h3 h4
    cases i with
    | zero =>
      simp only [List.getElem?_cons_zero, Option.some.injEq] at h1
      subst h1
      refine ⟨y, ?_⟩
      simp only [linesOps]
      refine List.mem_append_left _ ?_
      have h4' : cm (li, 0 + j) = some txt := by simpa using h4
      exact chordRowWalk_mem_of base chordF cm li y (tokenize_line line0) 0 (m : ℚ)
        j tok txt h2 h3 h4'
    | succ i =>
      simp only [List.getElem?_cons_succ] at h1
      have h4' : cm (li + 1 + i, j) = some txt := by
        rw [show li + 1 + i = li + (i + 1) by omega]
        exact h4
      obtain ⟨yr, hmem⟩ := ih (li + 1)
        (y + chordF.height + cg + base.height + ls) i line j tok txt h1 h2 h3 h4'
      refine ⟨yr, ?_⟩
      simp only [linesOps]
      exact List.mem_append_right _ (List.mem_cons_of_mem _ hmem)

theorem chordRowWalk_eraseKey (base chordF : Font)
    (cm : Nat × Nat → Option (List Char)) (k : Nat × Nat) (li : Nat) (y : ℤ) :
    ∀ (toks : List (List Char)) (ti : Nat) (x : ℚ),
      (∀ j tok, toks[j]? = some tok → isspaceStr tok = false → (li, ti + j) ≠ k) →
      chordRowWalk base chordF (eraseKey cm k) li y toks ti x
        = chordRowWalk base chordF cm li y toks ti x := by
  intro toks
  induction toks with
  | nil => intro ti x h; rfl
  | cons tok0 toks ih =>
    intro ti x h
    have hshift : ∀ j tok, toks[j]? = some tok → isspaceStr tok = false →
        (li, ti + 1 + j) ≠ k := by
      intro j tok hj hw
      have := h (j + 1) tok (by simpa using hj) hw
      rwa [show ti + (j + 1) = ti + 1 + j by omega] at this
    cases hsp : isspaceStr tok0 with
    | true =>
      simp only [chordRowWalk, hsp, if_true]
      exact ih (ti + 1) (x + base.width tok0) hshift
    | false =>
      simp only [chordRowWalk, hsp, Bool.false_eq_true, if_false]
      have hk : (li, ti) ≠ k := by
        have := h 0 tok0 (by simp) hsp
        simpa using this
      have hcm : eraseKey cm k (li, ti) = cm (li, ti) := by
        simp [eraseKey, hk]
      rw [hcm, ih (ti + 1) (x + base.width tok0 + base.width [' ']) hshift]

theorem linesOps_eraseKey (base chordF : Font)
    (cm : Nat × Nat → Option (List Char)) (k : Nat × Nat) (m cg ls : ℤ) :
    ∀ (lines : List (List Char)) (li : Nat) (y : ℤ),
      (∀ i line j tok, lines[i]? = some line →
        (tokenize_line line)[j]? = some tok → isspaceStr tok = false →
        (li + i, j) ≠ k) →
      linesOps base chordF (eraseKey cm k) m cg ls lines li y
        = linesOps base chordF cm m cg ls lines li y := by
  intro lines
  induction lines with
  | nil => intro li y h; rfl
  | cons line0 rest ih =>
    intro li y h
    have h0 : ∀ j tok, (tokenize_line line0)[j]? = some tok →
        isspaceStr tok = false → (li, 0 + j) ≠ k := by
      intro j tok hj hw
      have := h 0 line0 j tok (by simp) hj hw
      simpa using this
    have hs : ∀ i line j tok, rest[i]? = some line →
        (tokenize_line line)[j]? = some tok → isspaceStr tok = false →
        (li + 1 + i, j) ≠ k := by
      intro i line j tok hi hj hw
      have := h (i + 1) line j tok (by simpa using hi) hj hw
      rwa [show li + (i + 1) = li + 1 + i by omega] at this
    simp only [linesOps]
    rw [chordRowWalk_eraseKey base chordF cm k li y (tokenize_line line0) 0 (m : ℚ) h0,
      ih (li + 1) (y + chordF.height + cg + base.height + ls) hs]

theorem renderWithFonts_eraseKey (base chordF titleF : Font) (lyrics : List Char)
    (cm : Nat × Nat → Option (List Char)) (k : Nat × Nat)
    (title : Option (List Char)) (pw m ls cg : ℤ)
    (h : ∀ i line j tok, (splitlines lyrics)[i]? = some line →
      (tokenize_line line)[j]? = some tok → isspaceStr tok = false → (i, j) ≠ k) :
    renderWithFonts base chordF titleF lyrics (eraseKey cm k) title pw m ls cg
      = renderWithFonts base chordF titleF lyrics cm title pw m ls cg := by
  simp only [renderWithFonts]
  rw [linesOps_eraseKey base chordF cm k m cg ls (splitlines lyrics) 0 _ ?_]
  intro i line j tok hi hj hw
  have := h i line j tok hi hj hw
  simpa using this

end ChordApp

namespace ChordApp

/-- C2: canvas sizing — for fixed font metrics the rendered canvas is
exactly `margin*2 + titleHeight + N*(chordRowHeight + chordGap +
lyricRowHeight + lineSpacing)` pixels high, where `N` is the number of
lines the lyrics split into and the title block height is zero when no
(truthy) title is given, and exactly the configured page width wide. -/
theorem canvas_sizing (base chordF titleF : Font) (lyrics : List Char)
    (cm : Nat × Nat → Option (List Char)) (title : Option (List Char))
    (pw m ls cg : ℤ) :
    (renderWithFonts base chordF titleF lyrics cm title pw m ls cg).height
      = m * 2 + (if truthy title then titleF.height + 20 else 0)
        + ((splitlines lyrics).length : ℤ)
          * (chordF.height + cg + base.height + ls) ∧
    (renderWithFonts base chordF titleF lyrics cm title pw m ls cg).width = pw := by
  constructor
  · simp only [renderWithFonts]
    ring
  · rfl

/-- C3: an orphan chord-map entry — one whose `(lineIndex, tokenIndex)` key
matches no token of the tokenized lyrics (line index or token index out of
range) — is silently dropped: the render is identical to the render with
that entry removed, and no error is possible (the render is a total
function). -/
theorem orphan_chord_dropped (base chordF titleF : Font) (lyrics : List Char)
    (cm : Nat × Nat → Option (List Char)) (k : Nat × Nat)
    (title : Option (List Char)) (pw m ls cg : ℤ)
    (h : tokenAt lyrics k = none) :
    renderWithFonts base chordF titleF lyrics cm title pw m ls cg
      = renderWithFonts base chordF titleF lyrics (eraseKey cm k) title
          pw m ls cg := by
  refine (renderWithFonts_eraseKey base chordF titleF lyrics cm k title
    pw m ls cg ?_).symm
  intro i line j tok hi hj hw heq
  have hsome : tokenAt lyrics k = some tok := by
    rw [← heq]
    simp [tokenAt, hi, hj]
  rw [h] at hsome
  exact Option.noConfusion hsome

/-- C9: a chord-map entry whose key points at an existing token that is a
whitespace token is silently ignored exactly like an out-of-range key: the
space branch of the walk never consults the chord map, so the render is
identical to the render with that entry removed. -/
theorem space_keyed_chord_dropped (base chordF titleF : Font)
    (lyrics : List Char) (cm : Nat × Nat → Option (List Char)) (k : Nat × Nat)
    (title : Option (List Char)) (pw m ls cg : ℤ) (tok : List Char)
    (h1 : tokenAt lyrics k = some tok) (h2 : isspaceStr tok = true) :
    renderWithFonts base chordF titleF lyrics cm title pw m ls cg
      = renderWithFonts base chordF titleF lyrics (eraseKey cm k) title
          pw m ls cg := by
  refine (renderWithFonts_eraseKey base chordF titleF lyrics cm k title
    pw m ls cg ?_).symm
  intro i line j tok' hi hj hw heq
  have hsome : tokenAt lyrics k = some tok' := by
    rw [← heq]
    simp [tokenAt, hi, hj]
  rw [h1] at hsome
  have he : tok = tok' := by injection hsome
  rw [← he, h2] at hw
  exact Bool.noConfusion hw

/-- C4: chord placement — a chord at `(li, ti)` whose target word token has
lyric-font width `w` and whose label has chord-font width `c` is drawn at
horizontal offset `leftEdge + (w - c)/2`, where `leftEdge` is the cursor
position when the word is reached (margin plus the advances of all earlier
tokens of the line); the equality is exact in the rational model, hence
within any rounding pixel, and holds with no restriction on `c` versus `w`
(the chord may be wider than the word). -/
theorem chord_centered_above_word (base chordF titleF : Font)
    (lyrics : List Char) (cm : Nat × Nat → Option (List Char))
    (title : Option (List Char)) (pw m ls cg : ℤ) (li ti : Nat)
    (line tok txt : List Char)
    (h1 : (splitlines lyrics)[li]? = some line)
    (h2 : (tokenize_line line)[ti]? = some tok)
    (h3 : isspaceStr tok = false)
    (h4 : cm (li, ti) = some txt) :
    ∃ y, (⟨(m : ℚ) + (((tokenize_line line).take ti).map (advance base)).sum
        + (base.width tok - chordF.width txt) / 2, y, txt, FontSlot.chord⟩ : DrawOp)
      ∈ (renderWithFonts base chordF titleF lyrics cm title pw m ls cg).ops := by
  have h4' : cm (0 + li, ti) = some txt := by simpa using h4
  obtain ⟨yr, hmem⟩ := linesOps_mem_of base chordF cm m cg ls (splitlines lyrics)
    0 (m + (if truthy title then titleF.height + 20 else 0)) li line ti tok txt
    h1 h2 h3 h4'
  exact ⟨yr, List.mem_append_right _ hmem⟩

/-- C5: cursor advance rule of the per-line walk — the cursor ends at its
start plus the sum of per-token advances, where a space token advances by
the measured width of the whole whitespace run and a word token by its
measured width plus the width of exactly one space character (never the
width of the following whitespace token); and every draw the walk performs
belongs to a non-space token that has a chord-map entry, so space tokens
draw nothing. -/
theorem cursor_advance_rule (base chordF : Font)
    (cm : Nat × Nat → Option (List Char)) (li : Nat) (y : ℤ)
    (toks : List (List Char)) (ti : Nat) (x : ℚ) :
    (chordRowWalk base chordF cm li y toks ti x).2
      = x + (toks.map (advance base)).sum ∧
    ∀ op ∈ (chordRowWalk base chordF cm li y toks ti x).1,
      ∃ j tok, toks[j]? = some tok ∧ isspaceStr tok = false ∧
        cm (li, ti + j) = some op.s := by
  refine ⟨chordRowWalk_cursor base chordF cm li y toks ti x, ?_⟩
  intro op hop
  obtain ⟨j, tok, hj, hw, hcm, _, _⟩ :=
    chordRowWalk_mem base chordF cm li y toks ti x op hop
  exact ⟨j, tok, hj, hw, hcm⟩

/-- C7: font fallback is silent — when loading the preferred fonts fails
(the `except` path of the source, modelled by `fontLoad = none`), the
render substitutes the built-in default font for all three of the lyric,
chord and title fonts and completes normally, returning the same image the
engine produces with the default font everywhere; no error reaches the
caller (the function is total into `Image`). -/
theorem font_fallback_silent (lyrics : List Char)
    (cm : Nat × Nat → Option (List Char)) (title : Option (List Char))
    (pw m ls cg : ℤ) (defaultFont : Font) :
    render_chorded_lyrics lyrics cm title pw m ls cg none defaultFont
      = renderWithFonts defaultFont defaultFont defaultFont lyrics cm title
          pw m ls cg := rfl

/-- C10: rendering the empty lyrics string succeeds and yields a canvas of
exactly the configured page width by `2*margin + title block height`
pixels; the line loop runs zero times, so every draw call on the canvas is
a title draw (there is none when the title is not truthy) — no lyric or
chord text is drawn. -/
theorem empty_lyrics_render (base chordF titleF : Font)
    (cm : Nat × Nat → Option (List Char)) (title : Option (List Char))
    (pw m ls cg : ℤ) :
    (renderWithFonts base chordF titleF [] cm title pw m ls cg).width = pw ∧
    (renderWithFonts base chordF titleF [] cm title pw m ls cg).height
      = 2 * m + (if truthy title then titleF.height + 20 else 0) ∧
    ∀ op ∈ (renderWithFonts base chordF titleF [] cm title pw m ls cg).ops,
      op.slot = FontSlot.title := by
  refine ⟨rfl, ?_, ?_⟩
  · simp only [renderWithFonts]
    show m + _ + (base.height + chordF.height + cg + ls) * ((0 : ℕ) : ℤ) + m = _
    push_cast
    ring
  · intro op hop
    simp only [renderWithFonts] at hop
    rw [show splitlines [] = [] from rfl] at hop
    simp only [linesOps, List.append_nil] at hop
    by_cases htr : truthy title = true
    · simp only [htr, if_true, List.mem_singleton] at hop
      subst hop
      rfl
    · simp only [Bool.not_eq_true] at htr
      simp [htr] at hop

end ChordApp

namespace ChordApp

/-- A concrete lyric font for witnesses: 14 px per character, height 30. -/
def monoW : Font := ⟨fun s => (s.length : ℚ) * 14, 30⟩

/-- A concrete chord font for witnesses: 12 px per character, height 26. -/
def chordW : Font := ⟨fun s => (s.length : ℚ) * 12, 26⟩

/-- A concrete title font for witnesses: 18 px per character, height 40. -/
def titleW : Font := ⟨fun s => (s.length : ℚ) * 18, 40⟩

/-- A chord map holding one entry at the out-of-range key `(0, 5)`. -/
def demoMapOrphan : Nat × Nat → Option (List Char) :=
  fun q => if q = (0, 5) then some ['G'] else none

/-- A chord map holding one entry at `(0, 1)`, the space token of
`"Hello world"`. -/
def demoMapSpace : Nat × Nat → Option (List Char) :=
  fun q => if q = (0, 1) then some ['B'] else none

/-- A chord map holding one entry at `(0, 0)`, the word `"Guide"`. -/
def demoMapWord : Nat × Nat → Option (List Char) :=
  fun q => if q = (0, 0) then some ['C'] else none

/-- Witness for `orphan_chord_dropped`: `"Hello world"` tokenizes to three
tokens (indices 0..2), so the entry at `(0, 5)` matches no token and the
render equals the render without it. -/
theorem orphan_chord_dropped_witness :
    renderWithFonts monoW chordW titleW "Hello world".data demoMapOrphan
        (some "Chart".data) 1500 60 18 8
      = renderWithFonts monoW chordW titleW "Hello world".data
          (eraseKey demoMapOrphan (0, 5)) (some "Chart".data) 1500 60 18 8 :=
  orphan_chord_dropped monoW chordW titleW "Hello world".data demoMapOrphan
    (0, 5) (some "Chart".data) 1500 60 18 8 (by decide)

/-- Witness for `space_keyed_chord_dropped`: the token at `(0, 1)` of
`"Hello world"` is the space `" "`, so the entry there is dropped. -/
theorem space_keyed_chord_dropped_witness :
    renderWithFonts monoW chordW titleW "Hello world".data demoMapSpace
        (some "Chart".data) 1500 60 18 8
      = renderWithFonts monoW chordW titleW "Hello world".data
          (eraseKey demoMapSpace (0, 1)) (some "Chart".data) 1500 60 18 8 :=
  space_keyed_chord_dropped monoW chordW titleW "Hello world".data demoMapSpace
    (0, 1) (some "Chart".data) 1500 60 18 8 " ".data (by decide) (by decide)

/-- Witness for `chord_centered_above_word`: the chord `"C"` at `(0, 0)` of
`"Guide me"` is drawn over `"Guide"` at `margin + (w - c)/2`. -/
theorem chord_centered_above_word_witness :
    ∃ y, (⟨(((60 : ℤ)) : ℚ)
        + (((tokenize_line "Guide me".data).take 0).map (advance monoW)).sum
        + (monoW.width "Guide".data - chordW.width "C".data) / 2, y, "C".data,
        FontSlot.chord⟩ : DrawOp)
      ∈ (renderWithFonts monoW chordW titleW "Guide me".data demoMapWord
          (some "Chart".data) 1500 60 18 8).ops :=
  chord_centered_above_word monoW chordW titleW "Guide me".data demoMapWord
    (some "Chart".data) 1500 60 18 8 0 0 "Guide me".data "Guide".data "C".data
    (by decide) (by decide) (by decide) (by decide)

end ChordApp
